import Mathlib

/-!
Verification of the Knights-Tour-Puzzle repository (src/main.py): a
Warnsdorff-heuristic knight's tour solver on an N×N board.  The Python
program is shallowly embedded below; theorems check the repository's
specification claims against this embedding.
-/

set_option autoImplicit false

namespace KnightsTourPuzzle

/-- A board square: a `(row, column)` pair of Python integers. -/
abbrev Square := Int × Int

/-- The board of `KnightsTour`: cell value `-1` means unvisited, otherwise the
0-based step index at which the knight visited the cell.  The Python program
stores it as a nested list that is only ever indexed at in-bounds coordinates;
the main model is a total function, and the raw list-backed accesses are
modelled separately below (`is_freeChecked`, `neighborsChecked`) for the
access-safety analysis. -/
abbrev Board := Int → Int → Int

/-- `KNIGHT_MOVES` (src/main.py line 17): the 8 knight move offsets,
listed counterclockwise. -/
def KNIGHT_MOVES : List Square :=
  [(2, 1), (1, 2), (-1, 2), (-2, 1), (-2, -1), (-1, -2), (1, -2), (2, -1)]

/-- The all-unvisited board `[[-1 for ...] for ...]` (lines 26 and 49). -/
def initBoard : Board := fun _ _ => -1

/-- The assignment `self.board[r][c] = v` (line 54), at in-bounds coordinates. -/
def updBoard (b : Board) (r c : Int) (v : Int) : Board :=
  fun r' c' => if r' = r ∧ c' = c then v else b r' c'

/-- `KnightsTour._in_bounds` (lines 28–30): `0 <= r < self.n and 0 <= c < self.n`. -/
def in_bounds (n : Nat) (r c : Int) : Bool :=
  (decide (0 ≤ r) && decide (r < (n : Int))) && (decide (0 ≤ c) && decide (c < (n : Int)))

/-- `KnightsTour._is_free` (lines 32–34): in bounds and unvisited. -/
def is_free (n : Nat) (b : Board) (r c : Int) : Bool :=
  in_bounds n r c && (b r c == -1)

/-- `KnightsTour._neighbors` (lines 36–38): the list comprehension
`[(r + dr, c + dc) for dr, dc in KNIGHT_MOVES if self._is_free(r + dr, c + dc)]`. -/
def neighbors (n : Nat) (b : Board) (r c : Int) : List Square :=
  KNIGHT_MOVES.filterMap fun d =>
    if is_free n b (r + d.1) (c + d.2) then some (r + d.1, c + d.2) else none

/-- The sort key of `_warnsdorff_sort` (line 43): the onward mobility
`len(self._neighbors(pos[0], pos[1]))` of a candidate square. -/
def sortKey (n : Nat) (b : Board) (p : Square) : Nat :=
  (neighbors n b p.1 p.2).length

/-- `KnightsTour._warnsdorff_sort` (lines 40–44).  Python's `list.sort(key=...)`
is a stable ascending sort; a stable sort by a total preorder is unique, and
`List.mergeSort` with the `≤`-on-keys comparison is such a sort, so it models
`moves.sort(key=lambda pos: len(self._neighbors(pos[0], pos[1])))` exactly. -/
def warnsdorff_sort (n : Nat) (b : Board) (r c : Int) : List Square :=
  (neighbors n b r c).mergeSort fun p q => decide (sortKey n b p ≤ sortKey n b q)

/-- Result of one run of `solve_warnsdorff`, distinguishing the three `return`
statements of the Python source: `success` is `return path` (line 57),
`deadEnd` is `return None` at a dead end (line 60), and `exhausted` is the
defensive `return None` after the loop (line 63).  The Python caller observes
`toOption` of this value. -/
inductive TourResult where
  | success : List Square → TourResult
  | deadEnd : TourResult
  | exhausted : TourResult
deriving DecidableEq, Repr

/-- What the Python caller sees: `success path` is `path`, both `None` returns
are `None`. -/
def TourResult.toOption : TourResult → Option (List Square)
  | .success p => some p
  | .deadEnd => none
  | .exhausted => none

/-- The `for step in range(self.n * self.n)` loop of `solve_warnsdorff`
(lines 53–63).  `fuel` is the number of remaining loop iterations, so the
initial call uses `fuel = n * n` and `step = 0`; `fuel = 0` is the loop
running out, i.e. the `return None` after the loop (line 63). -/
def solveLoop (n : Nat) : Nat → Nat → Board → List Square → Int → Int → TourResult
  | 0, _, _, _, _, _ => .exhausted
  | fuel + 1, step, b, path, r, c =>
    let b' := updBoard b r c (step : Int)
    let path' := path ++ [(r, c)]
    if step = n * n - 1 then .success path'
    else
      match warnsdorff_sort n b' r c with
      | [] => .deadEnd
      | (r', c') :: _ => solveLoop n fuel (step + 1) b' path' r' c'

/-- `KnightsTour.solve_warnsdorff` (lines 46–63), instrumented to record which
`return` fired.  The board is reset to all-unvisited first (line 49). -/
def solveR (n : Nat) (r0 c0 : Int) : TourResult :=
  solveLoop n (n * n) 0 initBoard [] r0 c0

/-- `KnightsTour.solve_warnsdorff` as the Python caller sees it:
the completed path, or `None`. -/
def solve_warnsdorff (n : Nat) (r0 c0 : Int) : Option (List Square) :=
  (solveR n r0 c0).toOption

/-- The state constructed by `KnightsTour.__init__` (lines 20–26). -/
structure KnightsTour where
  n : Nat
  start : Square
  board : Board

/-- `KnightsTour.__init__` (lines 20–26): raises `ValueError` iff `n < 1`;
the start square is stored unvalidated; the board is set to all-unvisited. -/
def KnightsTour.init (n : Int) (start : Square) : Except String KnightsTour :=
  if n < 1 then Except.error "board size must be >= 1"
  else Except.ok ⟨n.toNat, start, initBoard⟩

/-- Python list indexing `l[i]`: a negative index counts from the end of the
list; an index outside `[-len(l), len(l))` raises `IndexError`, modelled as
`none`. -/
def pyGet {α : Type} (l : List α) (i : Int) : Option α :=
  if 0 ≤ i then l[i.toNat]?
  else if 0 ≤ i + l.length then l[(i + l.length).toNat]?
  else none

/-- `KnightsTour._is_free` over the real nested-list board, with Python's
short-circuit `and`: the cell `self.board[r][c]` is read only when the bounds
check already passed, and a raised `IndexError` is modelled as `none`. -/
def is_freeChecked (n : Nat) (board : List (List Int)) (r c : Int) : Option Bool :=
  if in_bounds n r c then
    (pyGet board r).bind fun row => (pyGet row c).map fun v => v == -1
  else some false

/-- Helper for `neighborsChecked`: folds over the offsets in order,
propagating a raised `IndexError` (`none`) from any `_is_free` call. -/
def neighborsCheckedGo (n : Nat) (board : List (List Int)) (r c : Int) :
    List Square → Option (List Square)
  | [] => some []
  | d :: ds =>
    (is_freeChecked n board (r + d.1) (c + d.2)).bind fun ok =>
      (neighborsCheckedGo n board r c ds).map fun rest =>
        if ok then (r + d.1, c + d.2) :: rest else rest

/-- `KnightsTour._neighbors` over the real nested-list board: `none` models an
`IndexError` raised by any of its `_is_free` calls. -/
def neighborsChecked (n : Nat) (board : List (List Int)) (r c : Int) :
    Option (List Square) :=
  neighborsCheckedGo n board r c KNIGHT_MOVES

/-! ### Basic lemmas about the move list and the board -/

theorem filterMap_if_eq_map_filter {α β : Type} (f : α → β) (P : β → Bool) (l : List α) :
    (l.filterMap fun d => if P (f d) then some (f d) else none) = (l.map f).filter P := by
  induction l with
  | nil => rfl
  | cons a l ih =>
    by_cases h : P (f a) = true <;>
      simp [List.filterMap_cons, List.filter_cons, h, ih]

theorem mem_neighbors {n : Nat} {b : Board} {r c : Int} {p : Square}
    (hp : p ∈ neighbors n b r c) :
    is_free n b p.1 p.2 = true ∧ ∃ d ∈ KNIGHT_MOVES, p = (r + d.1, c + d.2) := by
  simp only [neighbors, List.mem_filterMap] at hp
  obtain ⟨d, hd, hif⟩ := hp
  by_cases h : is_free n b (r + d.1) (c + d.2) = true
  · rw [if_pos h] at hif
    cases hif
    exact ⟨h, d, hd, rfl⟩
  · rw [if_neg h] at hif
    cases hif

theorem is_free_elim {n : Nat} {b : Board} {r c : Int}
    (h : is_free n b r c = true) : in_bounds n r c = true ∧ b r c = -1 := by
  simp only [is_free, Bool.and_eq_true, beq_iff_eq] at h
  exact h

/-! ### Claim C6: legal-move enumeration -/

/-- Claim C6: `_neighbors` applies the 8 fixed knight offsets in their declared
order, keeps exactly the in-bounds unvisited results, and returns them in that
same offset order (a filter of the mapped offset list, not a re-sort); every
returned square is in bounds and unvisited on the current board. -/
theorem legal_moves_spec (n : Nat) (b : Board) (r c : Int) :
    (neighbors n b r c
        = (KNIGHT_MOVES.map fun d => (r + d.1, c + d.2)).filter
            (fun p => is_free n b p.1 p.2))
    ∧ ∀ p ∈ neighbors n b r c, in_bounds n p.1 p.2 = true ∧ b p.1 p.2 = -1 := by
  refine ⟨?_, fun p hp => is_free_elim (mem_neighbors hp).1⟩
  exact filterMap_if_eq_map_filter (fun d => (r + d.1, c + d.2))
    (fun p => is_free n b p.1 p.2) KNIGHT_MOVES

/-- Witness for C6 at a concrete input: on an empty 8×8 board, `(2, 1)` is a
legal move from the corner, in bounds and unvisited. -/
theorem legal_moves_spec_witness :
    ((2, 1) : Square) ∈ neighbors 8 initBoard 0 0
      ∧ in_bounds 8 (2 : Int) (1 : Int) = true ∧ initBoard 2 1 = -1 :=
  have hm : ((2, 1) : Square) ∈ neighbors 8 initBoard 0 0 := by decide
  ⟨hm, (legal_moves_spec 8 initBoard 0 0).2 (2, 1) hm⟩

/-! ### Claim C5: Warnsdorff ranking -/

theorem sortLE_trans (n : Nat) (b : Board) (x y z : Square)
    (h1 : decide (sortKey n b x ≤ sortKey n b y) = true)
    (h2 : decide (sortKey n b y ≤ sortKey n b z) = true) :
    decide (sortKey n b x ≤ sortKey n b z) = true := by
  simp only [decide_eq_true_eq] at *
  omega

theorem sortLE_total (n : Nat) (b : Board) (x y : Square) :
    (decide (sortKey n b x ≤ sortKey n b y) || decide (sortKey n b y ≤ sortKey n b x)) = true := by
  rcases Nat.le_total (sortKey n b x) (sortKey n b y) with h | h <;> simp [h]

/-- Claim C5: `_warnsdorff_sort` returns a permutation of `_neighbors` (same
multiset), sorted by ascending onward-mobility count computed against the
current board (the candidate is not marked), stably: pairs that appear in the
offset-order neighbour list with equal counts keep their relative order; and
re-running on identical board state yields identical output (the function is
pure, so determinism is definitional). -/
theorem ranked_moves_spec (n : Nat) (b : Board) (r c : Int) :
    (warnsdorff_sort n b r c).Perm (neighbors n b r c)
    ∧ (warnsdorff_sort n b r c).Pairwise (fun p q => sortKey n b p ≤ sortKey n b q)
    ∧ (∀ p q : Square, [p, q].Sublist (neighbors n b r c) →
        sortKey n b p = sortKey n b q → [p, q].Sublist (warnsdorff_sort n b r c))
    ∧ warnsdorff_sort n b r c = warnsdorff_sort n b r c := by
  refine ⟨List.mergeSort_perm _ _, ?_, ?_, rfl⟩
  · have h := List.sorted_mergeSort (sortLE_trans n b) (sortLE_total n b) (neighbors n b r c)
    exact h.imp (fun hpq => of_decide_eq_true hpq)
  · intro p q hsub hkey
    refine List.sublist_mergeSort (sortLE_trans n b) (sortLE_total n b) ?_ hsub
    simp [List.pairwise_cons, hkey]

/-- Witness for C5's stability clause at a concrete input: on an empty 8×8
board, the two corner moves `(2, 1)` and `(1, 2)` have equal onward mobility
and keep their offset-list order in the ranked output. -/
theorem ranked_moves_spec_witness :
    [((2, 1) : Square), (1, 2)].Sublist (warnsdorff_sort 8 initBoard 0 0) :=
  ((ranked_moves_spec 8 initBoard 0 0).2.2.1 (2, 1) (1, 2) (by decide) (by decide))

/-! ### Claim C9: the 1×1 board -/

/-- Claim C9: for N = 1 and start `(0, 0)`, `solve_warnsdorff` returns
immediate success with the single-square path `[(0, 0)]`; in the loop body the
success return at step `0 = N² − 1` precedes any move computation. -/
theorem n_one_immediate_success : solve_warnsdorff 1 0 0 = some [(0, 0)] := by decide

/-! ### Claim C3: construction-time validation -/

/-- Counterexample to C3: constructing the engine with N = 5 and the
out-of-range start square `(5, 0)` succeeds — `__init__` never validates the
start square, so no out-of-range error is raised. -/
theorem init_accepts_out_of_range_start :
    KnightsTour.init 5 (5, 0) = Except.ok ⟨5, (5, 0), initBoard⟩ := rfl

/-- Amended C3: construction raises a configuration error exactly when N < 1;
the start square is stored unvalidated, so any start square — in range or
not — is accepted whenever N ≥ 1, and the constructed state is the full
engine state. -/
theorem init_error_iff_n_lt_one (n : Int) (start : Square) :
    (n < 1 → KnightsTour.init n start = Except.error "board size must be >= 1")
    ∧ (1 ≤ n → KnightsTour.init n start = Except.ok ⟨n.toNat, start, initBoard⟩) := by
  constructor
  · intro h
    simp [KnightsTour.init, h]
  · intro h
    simp [KnightsTour.init, not_lt.mpr h]

/-- Witness for the amended C3: N = 0 is rejected, while N = 5 with the
out-of-range start `(5, 0)` is accepted. -/
theorem init_error_iff_n_lt_one_witness :
    KnightsTour.init 0 (0, 0) = Except.error "board size must be >= 1"
    ∧ KnightsTour.init 5 (1, 0) = Except.ok ⟨5, (1, 0), initBoard⟩ :=
  ⟨(init_error_iff_n_lt_one 0 (0, 0)).1 (by decide),
    (init_error_iff_n_lt_one 5 (1, 0)).2 (by decide)⟩

/-! ### Claim C4: what the failure result carries -/

/-- Counterexample to C4: on the 2×2 board from `(0, 0)` the solver dead-ends
at step 0 with partial path `[(0, 0)]` already built, yet the `return None`
at line 60 fires and the caller receives `None`, which carries neither the
partial path nor the step count. -/
theorem failure_carries_nothing :
    solveR 2 0 0 = TourResult.deadEnd ∧ solve_warnsdorff 2 0 0 = none := by
  have hn : neighbors 2 (updBoard initBoard 0 0 0) 0 0 = [] := by decide
  have h : solveLoop 2 (3 + 1) 0 initBoard [] 0 0 = TourResult.deadEnd := by
    simp [solveLoop, warnsdorff_sort, hn]
  have h' : solveR 2 0 0 = TourResult.deadEnd := h
  exact ⟨h', by rw [solve_warnsdorff, h']; rfl⟩

/-- Amended C4: when `solve_warnsdorff` reaches a square with no legal
unvisited moves before completing all N² steps, it returns the bare failure
`None` (the dead-end return), discarding the partial path and step count. -/
theorem dead_end_returns_bare_none (n fuel step : Nat) (b : Board) (path : List Square)
    (r c : Int) (hstep : step ≠ n * n - 1)
    (hdead : warnsdorff_sort n (updBoard b r c (step : Int)) r c = []) :
    solveLoop n (fuel + 1) step b path r c = TourResult.deadEnd
    ∧ (solveLoop n (fuel + 1) step b path r c).toOption = none := by
  have h : solveLoop n (fuel + 1) step b path r c = TourResult.deadEnd := by
    simp only [solveLoop, if_neg hstep, hdead]
  rw [h]
  exact ⟨rfl, rfl⟩

/-- Witness for the amended C4 at a concrete input: the 2×2 board from
`(0, 0)` dead-ends immediately and the loop returns the bare dead-end
failure. -/
theorem dead_end_returns_bare_none_witness :
    solveLoop 2 (3 + 1) 0 initBoard [] 0 0 = TourResult.deadEnd
    ∧ (solveLoop 2 (3 + 1) 0 initBoard [] 0 0).toOption = none :=
  dead_end_returns_bare_none 2 3 0 initBoard [] 0 0 (by decide)
    (by
      have hn : neighbors 2 (updBoard initBoard 0 0 0) 0 0 = [] := by decide
      simp [warnsdorff_sort, hn])

/-! ### Claim C10: totality of the raw board accesses -/

theorem pyGet_spec {α : Type} (l : List α) (i : Int) (h0 : 0 ≤ i)
    (h : i.toNat < l.length) : ∃ x ∈ l, pyGet l i = some x := by
  refine ⟨l.get ⟨i.toNat, h⟩, List.get_mem l i.toNat h, ?_⟩
  simp only [pyGet, if_pos h0]
  exact List.getElem?_eq_getElem h

theorem is_freeChecked_isSome (n : Nat) (board : List (List Int))
    (hlen : board.length = n) (hrows : ∀ row ∈ board, row.length = n) (r c : Int) :
    (is_freeChecked n board r c).isSome := by
  unfold is_freeChecked
  by_cases h : in_bounds n r c = true
  · have h' := h
    simp only [in_bounds, Bool.and_eq_true, decide_eq_true_eq] at h'
    obtain ⟨⟨hr0, hrn⟩, hc0, hcn⟩ := h'
    have hrlt : r.toNat < board.length := by omega
    obtain ⟨row, hrowmem, hrow⟩ := pyGet_spec board r hr0 hrlt
    have hclt : c.toNat < row.length := by
      have := hrows row hrowmem
      omega
    obtain ⟨v, _, hv⟩ := pyGet_spec row c hc0 hclt
    simp [h, hrow, hv]
  · simp [h]

theorem neighborsCheckedGo_isSome (n : Nat) (board : List (List Int))
    (hlen : board.length = n) (hrows : ∀ row ∈ board, row.length = n) (r c : Int)
    (l : List Square) : (neighborsCheckedGo n board r c l).isSome := by
  induction l with
  | nil => rfl
  | cons d ds ih =>
    obtain ⟨ok, hok⟩ := Option.isSome_iff_exists.mp
      (is_freeChecked_isSome n board hlen hrows (r + d.1) (c + d.2))
    obtain ⟨rest, hrest⟩ := Option.isSome_iff_exists.mp ih
    simp [neighborsCheckedGo, hok, hrest]

/-- Claim C10: over the real nested-list board (any N×N board state, which
includes every state reachable in a run), `_is_free` and `_neighbors` are
total on all integer coordinate pairs — the bounds check short-circuits before
the cell read, so no access is out of range and no `IndexError` (modelled as
`none`) is ever raised. -/
theorem checked_access_total (n : Nat) (board : List (List Int))
    (hlen : board.length = n) (hrows : ∀ row ∈ board, row.length = n) (r c : Int) :
    (is_freeChecked n board r c).isSome ∧ (neighborsChecked n board r c).isSome :=
  ⟨is_freeChecked_isSome n board hlen hrows r c,
    neighborsCheckedGo_isSome n board hlen hrows r c KNIGHT_MOVES⟩

/-- Witness for C10 at a concrete input: on the 1×1 board, the wildly
out-of-range coordinates `(-3, 5)` are handled without any raised error. -/
theorem checked_access_total_witness :
    (is_freeChecked 1 [[-1]] (-3) 5).isSome ∧ (neighborsChecked 1 [[-1]] (-3) 5).isSome :=
  checked_access_total 1 [[-1]] (by decide) (by decide) (-3) 5

/-! ### The loop invariant of `solve_warnsdorff` -/

/-- Two squares differ by one of the 8 fixed knight offsets. -/
def knightRel (p q : Square) : Prop := (q.1 - p.1, q.2 - p.2) ∈ KNIGHT_MOVES

theorem updBoard_same (b : Board) (r c v : Int) : updBoard b r c v r c = v := by
  simp [updBoard]

theorem updBoard_other {x y : Int} (b : Board) (r c v : Int) (h : ¬(x = r ∧ y = c)) :
    updBoard b r c v x y = b x y := by
  simp [updBoard, h]

/-- State of `solveLoop` at the head of a loop iteration (just before line 54
runs for step `step`): `path` holds the first `step` squares, the board marks
exactly those, and the current square `(r, c)` is still free. -/
structure PreInv (n : Nat) (b : Board) (path : List Square) (r c : Int) (step : Nat) :
    Prop where
  len : path.length = step
  marked : ∀ x y : Int, b x y ≠ -1 ↔ (x, y) ∈ path
  idx : ∀ i : Fin path.length, b (path.get i).1 (path.get i).2 = ((i : Nat) : Int)
  free : is_free n b r c = true
  bounds : ∀ p ∈ path, in_bounds n p.1 p.2 = true
  chain : (path ++ [(r, c)]).Chain' knightRel

/-- State of `solveLoop` right after lines 54–55 ran for step `step`: the
current square has been marked and appended, so it is `path`'s last element. -/
structure PostInv (n : Nat) (b : Board) (path : List Square) (r c : Int) (step : Nat) :
    Prop where
  len : path.length = step + 1
  lastEq : path.getLast? = some (r, c)
  marked : ∀ x y : Int, b x y ≠ -1 ↔ (x, y) ∈ path
  idx : ∀ i : Fin path.length, b (path.get i).1 (path.get i).2 = ((i : Nat) : Int)
  bounds : ∀ p ∈ path, in_bounds n p.1 p.2 = true
  chain : path.Chain' knightRel

/-- Executing lines 54–55 (mark the current square, append it to the path)
turns the loop-head invariant into the after-append invariant. -/
theorem PreInv.mark {n : Nat} {b : Board} {path : List Square} {r c : Int} {step : Nat}
    (h : PreInv n b path r c step) :
    PostInv n (updBoard b r c (step : Int)) (path ++ [(r, c)]) r c step := by
  obtain ⟨hrc_bd, hrc_free⟩ := is_free_elim h.free
  have hnotmem : ((r, c) : Square) ∉ path := fun hmem =>
    ((h.marked r c).mpr hmem) hrc_free
  refine ⟨by simp [h.len], List.getLast?_concat _, ?_, ?_, ?_, h.chain⟩
  · intro x y
    by_cases hxy : x = r ∧ y = c
    · obtain ⟨rfl, rfl⟩ := hxy
      rw [updBoard_same]
      simp only [List.mem_append, List.mem_singleton]
      constructor
      · intro _
        exact Or.inr trivial
      · intro _
        have : (0 : Int) ≤ (step : Int) := Int.natCast_nonneg step
        omega
    · rw [updBoard_other b r c _ hxy]
      have hne : ((x, y) : Square) ≠ (r, c) := by
        intro hcontra
        exact hxy ⟨congrArg Prod.fst hcontra, congrArg Prod.snd hcontra⟩
      simp only [List.mem_append, List.mem_singleton]
      rw [h.marked x y]
      constructor
      · exact Or.inl
      · rintro (hmem | heq)
        · exact hmem
        · exact absurd heq hne
  · rintro ⟨i, hi⟩
    simp only [List.length_append, List.length_singleton] at hi
    by_cases hlt : i < path.length
    · have hget : (path ++ [(r, c)]).get ⟨i, by simp; omega⟩ = path.get ⟨i, hlt⟩ := by
        simp [List.get_eq_getElem, List.getElem_append_left hlt]
      rw [hget]
      have hmemget : path.get ⟨i, hlt⟩ ∈ path := List.get_mem path i hlt
      have hne : ¬((path.get ⟨i, hlt⟩).1 = r ∧ (path.get ⟨i, hlt⟩).2 = c) := by
        rintro ⟨h1, h2⟩
        apply hnotmem
        have : path.get ⟨i, hlt⟩ = (r, c) := Prod.ext h1 h2
        rwa [this] at hmemget
      rw [updBoard_other b r c _ hne]
      exact h.idx ⟨i, hlt⟩
    · have hieq : i = path.length := by omega
      have hget : (path ++ [(r, c)]).get ⟨i, by simp; omega⟩ = (r, c) := by
        subst hieq
        simp [List.get_eq_getElem, List.getElem_append_right (Nat.le_refl path.length)]
      rw [hget, updBoard_same]
      have hlen := h.len
      show (step : Int) = (i : Int)
      omega
  · intro p hp
    rcases List.mem_append.mp hp with hmem | heq
    · exact h.bounds p hmem
    · rw [List.mem_singleton.mp heq]
      exact hrc_bd

/-- If the ranked move list at the current square is nonempty, stepping to its
head (line 62) re-establishes the loop-head invariant for the next step. -/
theorem PostInv.next {n : Nat} {b : Board} {path : List Square} {r c r' c' : Int}
    {step : Nat} {rest : List Square} (h : PostInv n b path r c step)
    (hms : warnsdorff_sort n b r c = (r', c') :: rest) :
    PreInv n b path r' c' (step + 1) := by
  have hmem : ((r', c') : Square) ∈ neighbors n b r c := by
    have hmem' : ((r', c') : Square) ∈ warnsdorff_sort n b r c := by
      rw [hms]
      exact List.mem_cons_self _ _
    rw [warnsdorff_sort] at hmem'
    exact List.mem_mergeSort.mp hmem'
  obtain ⟨hfree, d, hd, hpq⟩ := mem_neighbors hmem
  refine ⟨h.len, h.marked, h.idx, hfree, h.bounds, ?_⟩
  rw [List.chain'_append]
  refine ⟨h.chain, List.chain'_singleton _, ?_⟩
  intro x hx y hy
  rw [h.lastEq, Option.mem_some_iff] at hx
  simp only [List.head?_cons, Option.mem_some_iff] at hy
  subst hx
  subst hy
  have hrel : (((r', c') : Square).1 - ((r, c) : Square).1,
      ((r', c') : Square).2 - ((r, c) : Square).2) = d := by
    have h1 : r' = r + d.1 := congrArg Prod.fst hpq
    have h2 : c' = c + d.2 := congrArg Prod.snd hpq
    simp [h1, h2]
  show knightRel (r, c) (r', c')
  unfold knightRel
  rw [hrel]
  exact hd

/-- A path whose board marks give every entry its own distinct step index has
no duplicates. -/
theorem PostInv.nodupPath {n : Nat} {b : Board} {path : List Square} {r c : Int}
    {step : Nat} (h : PostInv n b path r c step) : path.Nodup := by
  rw [List.nodup_iff_injective_get]
  intro i j hij
  have hi := h.idx i
  have hj := h.idx j
  rw [hij] at hi
  have : ((i : Nat) : Int) = ((j : Nat) : Int) := by rw [← hi, ← hj]
  exact Fin.ext (by exact_mod_cast this)

/-! ### Pigeonhole: N² distinct in-bounds squares cover the board -/

/-- The set of all in-bounds squares of the N×N board. -/
def boardFinset (n : Nat) : Finset Square :=
  (Finset.range n ×ˢ Finset.range n).image fun q => ((q.1 : Int), (q.2 : Int))

theorem mem_boardFinset {n : Nat} {q : Square} :
    q ∈ boardFinset n ↔ in_bounds n q.1 q.2 = true := by
  simp only [boardFinset, Finset.mem_image, Finset.mem_product, Finset.mem_range,
    in_bounds, Bool.and_eq_true, decide_eq_true_eq]
  constructor
  · rintro ⟨⟨a, d⟩, ⟨ha, hd⟩, rfl⟩
    refine ⟨⟨Int.natCast_nonneg a, ?_⟩, Int.natCast_nonneg d, ?_⟩ <;> exact_mod_cast by omega
  · rintro ⟨⟨h1, h2⟩, h3, h4⟩
    refine ⟨(q.1.toNat, q.2.toNat), ⟨by omega, by omega⟩, ?_⟩
    have e1 : (q.1.toNat : Int) = q.1 := Int.toNat_of_nonneg h1
    have e2 : (q.2.toNat : Int) = q.2 := Int.toNat_of_nonneg h3
    simp [e1, e2]

theorem card_boardFinset (n : Nat) : (boardFinset n).card = n * n := by
  rw [boardFinset, Finset.card_image_of_injective, Finset.card_product,
    Finset.card_range]
  intro a b hab
  have h1 : (a.1 : Int) = b.1 := congrArg Prod.fst hab
  have h2 : (a.2 : Int) = b.2 := congrArg Prod.snd hab
  exact Prod.ext (by exact_mod_cast h1) (by exact_mod_cast h2)

/-- A duplicate-free list of `n * n` in-bounds squares covers the whole
N×N board. -/
theorem coverage {n : Nat} {p : List Square} (hlen : p.length = n * n)
    (hnd : p.Nodup) (hb : ∀ q ∈ p, in_bounds n q.1 q.2 = true) :
    ∀ q : Square, in_bounds n q.1 q.2 = true → q ∈ p := by
  have hsub : p.toFinset ⊆ boardFinset n := fun q hq =>
    mem_boardFinset.mpr (hb q (List.mem_toFinset.mp hq))
  have hcard : p.toFinset.card = n * n := by
    rw [List.toFinset_card_of_nodup hnd, hlen]
  have heq : p.toFinset = boardFinset n :=
    Finset.eq_of_subset_of_card_le hsub (by rw [hcard, card_boardFinset]) |>.symm ▸ rfl
  intro q hq
  have : q ∈ p.toFinset := by
    rw [heq]
    exact mem_boardFinset.mpr hq
  exact List.mem_toFinset.mp this

/-! ### Soundness of the construction loop -/

/-- Core soundness of `solveLoop`: from any loop-head state satisfying the
invariant, the run ends in a dead-end failure or in a success whose path has
exactly N² pairwise-distinct in-bounds squares covering the whole board, with
consecutive squares a knight move apart. -/
theorem solveLoop_sound (n : Nat) :
    ∀ fuel step b path r c, fuel + step = n * n → 1 ≤ fuel →
      PreInv n b path r c step →
      solveLoop n fuel step b path r c = TourResult.deadEnd
      ∨ ∃ p, solveLoop n fuel step b path r c = TourResult.success p
          ∧ p.length = n * n ∧ p.Nodup ∧ p.Chain' knightRel
          ∧ (∀ q ∈ p, in_bounds n q.1 q.2 = true)
          ∧ (∀ q : Square, in_bounds n q.1 q.2 = true → q ∈ p) := by
  intro fuel
  induction fuel with
  | zero => intro step b path r c _ hf _; omega
  | succ f ih =>
    intro step b path r c heq _ hinv
    have hpost := hinv.mark
    by_cases hstep : step = n * n - 1
    · right
      have hlen : (path ++ [(r, c)]).length = n * n := by
        have := hpost.len
        omega
      have hnd := hpost.nodupPath
      have hbd := hpost.bounds
      refine ⟨path ++ [(r, c)], ?_, hlen, hnd, hpost.chain, hbd, coverage hlen hnd hbd⟩
      simp only [solveLoop, if_pos hstep]
    · rcases hms : warnsdorff_sort n (updBoard b r c (step : Int)) r c with _ | ⟨⟨r', c'⟩, rest⟩
      · left
        simp only [solveLoop, if_neg hstep, hms]
      · have hpre' := hpost.next hms
        have heq' : f + (step + 1) = n * n := by omega
        have hf' : 1 ≤ f := by omega
        have hrec := ih (step + 1) (updBoard b r c (step : Int)) (path ++ [(r, c)]) r' c'
          heq' hf' hpre'
        have hunfold : solveLoop n (f + 1) step b path r c
            = solveLoop n f (step + 1) (updBoard b r c (step : Int)) (path ++ [(r, c)]) r' c' := by
          simp only [solveLoop, if_neg hstep, hms]
        rw [hunfold]
        exact hrec

/-- The loop-head invariant holds at the start of the run, for any in-bounds
start square on the freshly reset board. -/
theorem preInv_init (n : Nat) (r0 c0 : Int) (hstart : in_bounds n r0 c0 = true) :
    PreInv n initBoard [] r0 c0 0 := by
  refine ⟨rfl, ?_, ?_, ?_, ?_, ?_⟩
  · intro x y
    simp [initBoard]
  · rintro ⟨i, hi⟩
    simp at hi
  · simp [is_free, initBoard, hstart]
  · intro p hp
    simp at hp
  · simp

theorem one_le_sq {n : Nat} (hn : 1 ≤ n) : 1 ≤ n * n :=
  Nat.one_le_iff_ne_zero.mpr (Nat.mul_ne_zero (by omega) (by omega))

/-! ### Claim C1: totality of success -/

/-- Claim C1: for every N ≥ 5 and every in-bounds start square,
`solve_warnsdorff` either fails (`None`) or returns a path of length exactly
N² whose squares are pairwise distinct and cover the whole board; it never
returns a shorter path as success and the returned path has no duplicate. -/
theorem solve_total_or_failure (n : Nat) (r0 c0 : Int) (hn : 5 ≤ n)
    (hstart : in_bounds n r0 c0 = true) :
    solve_warnsdorff n r0 c0 = none
    ∨ ∃ p, solve_warnsdorff n r0 c0 = some p ∧ p.length = n * n ∧ p.Nodup
        ∧ ∀ q : Square, in_bounds n q.1 q.2 = true → q ∈ p := by
  have h := solveLoop_sound n (n * n) 0 initBoard [] r0 c0 (by omega)
    (one_le_sq (by omega)) (preInv_init n r0 c0 hstart)
  rcases h with h | ⟨p, hp, hlen, hnd, _, _, hcov⟩
  · left
    rw [solve_warnsdorff, solveR, h]
    rfl
  · right
    refine ⟨p, ?_, hlen, hnd, hcov⟩
    rw [solve_warnsdorff, solveR, hp]
    rfl

/-- Witness for C1 at a concrete input: N = 5 with start `(0, 0)`. -/
theorem solve_total_or_failure_witness :
    solve_warnsdorff 5 0 0 = none
    ∨ ∃ p, solve_warnsdorff 5 0 0 = some p ∧ p.length = 5 * 5 ∧ p.Nodup
        ∧ ∀ q : Square, in_bounds 5 q.1 q.2 = true → q ∈ p :=
  solve_total_or_failure 5 0 0 (by decide) (by decide)

/-! ### Claim C7: successful tours move like a knight -/

/-- Claim C7: in every path returned as a successful tour by
`solve_warnsdorff` from an in-bounds start, each pair of consecutive squares
differs by exactly one of the 8 fixed knight offsets. -/
theorem tour_steps_are_knight_moves (n : Nat) (r0 c0 : Int) (p : List Square)
    (hstart : in_bounds n r0 c0 = true) (hp : solve_warnsdorff n r0 c0 = some p) :
    p.Chain' knightRel := by
  rcases Nat.eq_zero_or_pos n with hn | hn
  · subst hn
    rw [solve_warnsdorff, solveR] at hp
    simp [solveLoop, TourResult.toOption] at hp
  · have h := solveLoop_sound n (n * n) 0 initBoard [] r0 c0 (by omega)
      (one_le_sq hn) (preInv_init n r0 c0 hstart)
    rcases h with h | ⟨p', hp', _, _, hchain, _, _⟩
    · rw [solve_warnsdorff, solveR, h] at hp
      simp [TourResult.toOption] at hp
    · rw [solve_warnsdorff, solveR, hp'] at hp
      simp only [TourResult.toOption, Option.some.injEq] at hp
      rwa [← hp]

/-- Witness for C7 at a concrete input: the 1×1 tour from `(0, 0)`. -/
theorem tour_steps_are_knight_moves_witness :
    List.Chain' knightRel [((0 : Int), (0 : Int))] :=
  tour_steps_are_knight_moves 1 0 0 [(0, 0)] (by decide) (by decide)

/-! ### Claim C8: the defensive return after the loop is dead code -/

/-- As long as the remaining iteration budget still covers the remaining
steps, the loop always returns from inside an iteration and never falls off
the end. -/
theorem solveLoop_ne_exhausted (n : Nat) :
    ∀ fuel step b path r c, fuel + step = n * n → 1 ≤ fuel →
      solveLoop n fuel step b path r c ≠ TourResult.exhausted := by
  intro fuel
  induction fuel with
  | zero => intro step b path r c _ hf; omega
  | succ f ih =>
    intro step b path r c heq _
    by_cases hstep : step = n * n - 1
    · simp only [solveLoop, if_pos hstep]
      intro hcontra
      cases hcontra
    · rcases hms : warnsdorff_sort n (updBoard b r c (step : Int)) r c with _ | ⟨⟨r', c'⟩, rest⟩
      · simp only [solveLoop, if_neg hstep, hms]
        intro hcontra
        cases hcontra
      · have hunfold : solveLoop n (f + 1) step b path r c
            = solveLoop n f (step + 1) (updBoard b r c (step : Int)) (path ++ [(r, c)]) r' c' := by
          simp only [solveLoop, if_neg hstep, hms]
        rw [hunfold]
        exact ih (step + 1) (updBoard b r c (step : Int)) (path ++ [(r, c)]) r' c'
          (by omega) (by omega)

/-- Claim C8: for every N ≥ 1 and every in-bounds start square, the run
terminates by a return inside the loop — success at step N²−1 or a dead-end
failure — and the defensive failure return placed after the loop (line 63)
is never reached. -/
theorem loop_exit_unreachable (n : Nat) (r0 c0 : Int) (hn : 1 ≤ n)
    (hstart : in_bounds n r0 c0 = true) :
    ((∃ p, solveR n r0 c0 = TourResult.success p) ∨ solveR n r0 c0 = TourResult.deadEnd)
    ∧ solveR n r0 c0 ≠ TourResult.exhausted := by
  have hne : solveR n r0 c0 ≠ TourResult.exhausted :=
    solveLoop_ne_exhausted n (n * n) 0 initBoard [] r0 c0 (by omega) (one_le_sq hn)
  refine ⟨?_, hne⟩
  rcases hres : solveR n r0 c0 with p | _ | _
  · exact Or.inl ⟨p, rfl⟩
  · exact Or.inr rfl
  · exact absurd hres hne

/-- Witness for C8 at a concrete input: N = 1 from `(0, 0)`. -/
theorem loop_exit_unreachable_witness :
    ((∃ p, solveR 1 0 0 = TourResult.success p) ∨ solveR 1 0 0 = TourResult.deadEnd)
    ∧ solveR 1 0 0 ≠ TourResult.exhausted :=
  loop_exit_unreachable 1 0 0 (by decide) (by decide)

/-! ### Claim C2: the run invariant at every observation point -/

/-- The observation points of a run of `solve_warnsdorff` from `(r0, c0)`:
the state right after lines 54–55 executed for some step (board updated, path
appended, `(r, c)` the current square, `step` the current step index).
`first` is the state after the first iteration's mark-and-append; `next`
mirrors the loop continuation exactly: the success test failed, the ranked
move list was nonempty, and the knight stepped to its head. -/
inductive Reach (n : Nat) (r0 c0 : Int) :
    Board → List Square → Int → Int → Nat → Prop where
  | first : Reach n r0 c0 (updBoard initBoard r0 c0 ((0 : Nat) : Int)) [(r0, c0)] r0 c0 0
  | next {b path r c step r' c' rest} :
      Reach n r0 c0 b path r c step →
      step ≠ n * n - 1 →
      warnsdorff_sort n b r c = (r', c') :: rest →
      Reach n r0 c0 (updBoard b r' c' ((step + 1 : Nat) : Int)) (path ++ [(r', c')]) r' c'
        (step + 1)

/-- Every reachable observation state satisfies the after-append invariant. -/
theorem reach_postInv {n : Nat} {r0 c0 : Int} {b : Board} {path : List Square}
    {r c : Int} {step : Nat} (hstart : in_bounds n r0 c0 = true)
    (hreach : Reach n r0 c0 b path r c step) : PostInv n b path r c step := by
  induction hreach with
  | first => exact (preInv_init n r0 c0 hstart).mark
  | next hr hstep hms ih => exact (ih.next hms).mark

/-- Claim C2: at every observation point of a run from an in-bounds start
square (the state after each mark-and-append), a cell is marked visited iff
it appears in the path built so far, its stored step index equals its 0-based
position in the path, no square appears twice, and the current knight
position is the path's last element.  (Before the first step the path is
empty, no cell of the reset board is marked, and the current position is the
start square, so the invariant holds there trivially; the conjunct about
`initBoard` records that.) -/
theorem run_invariant (n : Nat) (r0 c0 : Int) (b : Board) (path : List Square)
    (r c : Int) (step : Nat) (hstart : in_bounds n r0 c0 = true)
    (hreach : Reach n r0 c0 b path r c step) :
    (∀ x y : Int, b x y ≠ -1 ↔ (x, y) ∈ path)
    ∧ (∀ i : Fin path.length, b (path.get i).1 (path.get i).2 = ((i : Nat) : Int))
    ∧ path.Nodup
    ∧ path.getLast? = some (r, c)
    ∧ ∀ x y : Int, initBoard x y = -1 := by
  have h := reach_postInv hstart hreach
  exact ⟨h.marked, h.idx, h.nodupPath, h.lastEq, fun _ _ => rfl⟩

/-- Witness for C2 at a concrete state: the state right after the first
mark-and-append of the 1×1 run from `(0, 0)`. -/
theorem run_invariant_witness :
    (∀ x y : Int, updBoard initBoard 0 0 ((0 : Nat) : Int) x y ≠ -1
        ↔ (x, y) ∈ [((0 : Int), (0 : Int))])
    ∧ [((0 : Int), (0 : Int))].getLast? = some (0, 0) :=
  have h := run_invariant 1 0 0 (updBoard initBoard 0 0 ((0 : Nat) : Int))
    [(0, 0)] 0 0 0 (by decide) Reach.first
  ⟨h.1, h.2.2.2.1⟩

end KnightsTourPuzzle
